import Mathlib

/-!
Shallow embedding of the RBM collaborative-filtering model from
src/testfm/models/theano_models.py, together with theorems checking the
frozen specification claims against it.

Modelling conventions:
* floating-point values are modelled as real numbers;
* the seeded theano RandomStreams object is modelled as an explicit
  infinite stream of uniform draws that every sampling call consumes and
  advances by a fixed amount;
* a dense numpy matrix is modelled as a total function on row and column
  indices, with the intended row and column counts carried alongside;
* a theano symbolic graph together with its update dictionary is modelled
  as an explicit state-passing function: the compiled training function is
  embedded as a step on a training state record;
* a raised Python exception is modelled as the error branch of Except.
-/

namespace TestFM

/-- Stream of uniform draws in the unit interval, standing for the seeded
theano RandomStreams object threaded through every sampling call. -/
abbrev Rng : Type := ℕ → ℝ

/-- Advance the stream past its first n draws. -/
def dropRng (n : ℕ) (g : Rng) : Rng := fun k => g (k + n)

/-- Dense real matrix as a total function on row and column indices. -/
abbrev Mat : Type := ℕ → ℕ → ℝ

/-- All-zero matrix, as produced by numpy.zeros. -/
noncomputable def zeroMat : Mat := fun _ _ => 0

/-- Logistic sigmoid, the embedding of T.nnet.sigmoid. -/
noncomputable def sigmoid (x : ℝ) : ℝ := 1 / (1 + Real.exp (-x))

/-- One Bernoulli draw built from one uniform draw, the embedding of
theano_rng.binomial with n = 1 and success probability p. -/
noncomputable def bern (u p : ℝ) : ℝ := if u < p then 1 else 0

/-- Parameters of the RBM (class RBM in theano_models.py): the weight
matrix W of shape n_visible by n_hidden, the hidden bias vector hbias and
the visible bias vector vbias. -/
structure RBMCore where
  nv : ℕ
  nh : ℕ
  W : ℕ → ℕ → ℝ
  hbias : ℕ → ℝ
  vbias : ℕ → ℝ

/-- Hidden-side pre-sigmoid activation of one visible row vector:
entry j of T.dot(v, W) + hbias. -/
noncomputable def wxb (rb : RBMCore) (v : ℕ → ℝ) (j : ℕ) : ℝ :=
  (∑ i in Finset.range rb.nv, v i * rb.W i j) + rb.hbias j

/-- Visible-side pre-sigmoid activation of one hidden row vector:
entry i of T.dot(h, W.T) + vbias. -/
noncomputable def hwb (rb : RBMCore) (h : ℕ → ℝ) (i : ℕ) : ℝ :=
  (∑ j in Finset.range rb.nh, h j * rb.W i j) + rb.vbias i

/-- Free energy of one visible row vector (RBM.free_energy):
minus the softplus hidden term minus the visible bias term. -/
noncomputable def free_energy (rb : RBMCore) (v : ℕ → ℝ) : ℝ :=
  -(∑ j in Finset.range rb.nh, Real.log (1 + Real.exp (wxb rb v j)))
    - ∑ i in Finset.range rb.nv, v i * rb.vbias i

/-- Result of one stochastic layer inference (RBM.sample_h_given_v or
RBM.sample_v_given_h): pre-sigmoid activation, mean-field probability,
binary sample, and the advanced draw stream. -/
structure SampleOut where
  pre : Mat
  mean : Mat
  sample : Mat
  g : Rng

/-- Elementwise Bernoulli sampling of a matrix of probabilities, consuming
one uniform draw per entry (row-major). -/
noncomputable def sampleMat (g : Rng) (cols : ℕ) (p : Mat) : Mat :=
  fun r c => bern (g (r * cols + c)) (p r c)

/-- RBM.sample_h_given_v on a batch of m visible rows: propagate up
(RBM.propup) and draw a binary hidden sample. -/
noncomputable def sample_h_given_v (rb : RBMCore) (m : ℕ) (g : Rng) (v : Mat) :
    SampleOut :=
  { pre := fun r j => wxb rb (v r) j
    mean := fun r j => sigmoid (wxb rb (v r) j)
    sample := sampleMat g rb.nh (fun r j => sigmoid (wxb rb (v r) j))
    g := dropRng (m * rb.nh) g }

/-- RBM.sample_v_given_h on a batch of m hidden rows: propagate down
(RBM.propdown) and draw a binary visible sample. -/
noncomputable def sample_v_given_h (rb : RBMCore) (m : ℕ) (g : Rng) (h : Mat) :
    SampleOut :=
  { pre := fun r i => hwb rb (h r) i
    mean := fun r i => sigmoid (hwb rb (h r) i)
    sample := sampleMat g rb.nv (fun r i => sigmoid (hwb rb (h r) i))
    g := dropRng (m * rb.nv) g }

/-- The six outputs of one Gibbs step starting from the hidden state
(RBM.gibbs_hvh). -/
structure GibbsHVH where
  vpre : Mat
  vmean : Mat
  vsample : Mat
  hpre : Mat
  hmean : Mat
  hsample : Mat

/-- Placeholder step used only as the default of List.getLastD. -/
noncomputable def dfltStep : GibbsHVH :=
  ⟨zeroMat, zeroMat, zeroMat, zeroMat, zeroMat, zeroMat⟩

/-- RBM.gibbs_hvh: down from the hidden sample, then up again. -/
noncomputable def gibbs_hvh (rb : RBMCore) (m : ℕ) (g : Rng) (h0 : Mat) :
    GibbsHVH × Rng :=
  let sv := sample_v_given_h rb m g h0
  let sh := sample_h_given_v rb m sv.g sv.sample
  (⟨sv.pre, sv.mean, sv.sample, sh.pre, sh.mean, sh.sample⟩, sh.g)

/-- The six outputs of one Gibbs step starting from the visible state
(RBM.gibbs_vhv). -/
structure GibbsVHV where
  hpre : Mat
  hmean : Mat
  hsample : Mat
  vpre : Mat
  vmean : Mat
  vsample : Mat

/-- RBM.gibbs_vhv: up from the visible sample, then down again. -/
noncomputable def gibbs_vhv (rb : RBMCore) (m : ℕ) (g : Rng) (v0 : Mat) :
    GibbsVHV × Rng :=
  let sh := sample_h_given_v rb m g v0
  let sv := sample_v_given_h rb m sh.g sh.sample
  (⟨sh.pre, sh.mean, sh.sample, sv.pre, sv.mean, sv.sample⟩, sv.g)

/-- The theano.scan over gibbs_hvh in RBM.get_cost_updates: the whole
k-step Gibbs chain started from h0, in order, with the advanced stream. -/
noncomputable def runChain (rb : RBMCore) (m : ℕ) :
    ℕ → Rng → Mat → List GibbsHVH × Rng
  | 0, g, _ => ([], g)
  | k + 1, g, h0 =>
      let st := gibbs_hvh rb m g h0
      let rest := runChain rb m k st.2 st.1.hsample
      (st.1 :: rest.1, rest.2)

/-- Mean of the first m entries of a vector (T.mean on a length-m vector). -/
noncomputable def rowMean (m : ℕ) (f : ℕ → ℝ) : ℝ :=
  (∑ r in Finset.range m, f r) / m

/-- Elementwise rounding to the nearest integer (T.round), used by the
pseudo-likelihood monitor to binarize its input. -/
noncomputable def roundMat (x : Mat) : Mat := fun r c => ((round (x r c) : ℤ) : ℝ)

/-- T.set_subtensor(xi[:, b], 1 - xi[:, b]): flip column b, keep the rest. -/
noncomputable def flipCol (b : ℕ) (x : Mat) : Mat :=
  fun r c => if c = b then 1 - x r c else x r c

/-- RBM.get_pseudo_likelihood_cost evaluated at the current value of the
rotating shared counter bit_i_idx: binarize the m-row input by rounding,
flip bit bitIdx of every row, and average
n_visible * log(sigmoid(free_energy(flipped) - free_energy(original))). -/
noncomputable def get_pseudo_likelihood_cost (rb : RBMCore) (m : ℕ)
    (input : Mat) (bitIdx : ℕ) : ℝ :=
  let xi := roundMat input
  let fe_xi := fun r => free_energy rb (xi r)
  let xi_flip := flipCol bitIdx xi
  let fe_xi_flip := fun r => free_energy rb (xi_flip r)
  rowMean m (fun r => (rb.nv : ℝ) * Real.log (sigmoid (fe_xi_flip r - fe_xi r)))

/-- RBM.get_reconstruction_cost: stable cross-entropy computed from the
pre-sigmoid visible activation of the last chain step. -/
noncomputable def get_reconstruction_cost (rb : RBMCore) (m : ℕ)
    (input preNv : Mat) : ℝ :=
  rowMean m (fun r => ∑ c in Finset.range rb.nv,
    (input r c * Real.log (sigmoid (preNv r c)) +
      (1 - input r c) * Real.log (1 - sigmoid (preNv r c))))

/-- Partial derivative, with respect to W i j, of the CD surrogate cost
mean(free_energy(input)) - mean(free_energy(chain_end)), holding the chain
end constant. This is the value T.grad returns for the graph built in
RBM.get_cost_updates with consider_constant=[chain_end]. -/
noncomputable def gradW (rb : RBMCore) (m : ℕ) (input chainEnd : Mat)
    (i j : ℕ) : ℝ :=
  rowMean m (fun r => -(sigmoid (wxb rb (input r) j)) * input r i)
    - rowMean m (fun r => -(sigmoid (wxb rb (chainEnd r) j)) * chainEnd r i)

/-- Partial derivative of the CD surrogate cost with respect to hbias j,
holding the chain end constant (value of T.grad, as for gradW). -/
noncomputable def gradHbias (rb : RBMCore) (m : ℕ) (input chainEnd : Mat)
    (j : ℕ) : ℝ :=
  rowMean m (fun r => -(sigmoid (wxb rb (input r) j)))
    - rowMean m (fun r => -(sigmoid (wxb rb (chainEnd r) j)))

/-- Partial derivative of the CD surrogate cost with respect to vbias i,
holding the chain end constant (value of T.grad, as for gradW). -/
noncomputable def gradVbias (_rb : RBMCore) (m : ℕ) (input chainEnd : Mat)
    (i : ℕ) : ℝ :=
  rowMean m (fun r => -(input r i)) - rowMean m (fun r => -(chainEnd r i))

/-- Everything produced by one evaluation of the graph built in
RBM.get_cost_updates together with its update dictionary: the monitoring
cost, the updated parameters, the updated persistent chain state (when one
was supplied), the updated rotating bit counter, and the advanced draw
stream. The positive-phase hidden sample, the chain start and the whole
chain are also recorded so that the dataflow can be stated. -/
structure CostUpdates where
  cost : ℝ
  rbm : RBMCore
  persistent : Option Mat
  bitIdx : ℕ
  g : Rng
  ph_sample : Mat
  chain_start : Mat
  chain : List GibbsHVH

/-- RBM.get_cost_updates on a batch of m rows: positive phase, choice of
the chain start (fresh hidden sample for CD, supplied state for PCD),
k-step negative-phase chain, gradient-descent parameter updates, and the
monitoring cost (pseudo-likelihood for PCD, reconstruction cross-entropy
for CD). bitIdx is the current value of the shared counter bit_i_idx that
get_pseudo_likelihood_cost creates with initial value 0 and advances. -/
noncomputable def get_cost_updates (rb : RBMCore) (m : ℕ) (input : Mat)
    (g : Rng) (lr : ℝ) (persistent : Option Mat) (k : ℕ) (bitIdx : ℕ) :
    CostUpdates :=
  let ph := sample_h_given_v rb m g input
  let chain_start : Mat :=
    match persistent with
    | none => ph.sample
    | some p => p
  let cr := runChain rb m k ph.g chain_start
  let chain := cr.1
  let chain_end : Mat := (chain.getLastD dfltStep).vsample
  let rb' : RBMCore :=
    { rb with
      W := fun i j => rb.W i j - gradW rb m input chain_end i j * lr
      hbias := fun j => rb.hbias j - gradHbias rb m input chain_end j * lr
      vbias := fun i => rb.vbias i - gradVbias rb m input chain_end i * lr }
  match persistent with
  | some _ =>
      { cost := get_pseudo_likelihood_cost rb m input bitIdx
        rbm := rb'
        persistent := some ((chain.getLastD dfltStep).hsample)
        bitIdx := (bitIdx + 1) % rb.nv
        g := cr.2
        ph_sample := ph.sample
        chain_start := chain_start
        chain := chain }
  | none =>
      { cost := get_reconstruction_cost rb m input ((chain.getLastD dfltStep).vpre)
        rbm := rb'
        persistent := none
        bitIdx := bitIdx
        g := cr.2
        ph_sample := ph.sample
        chain_start := chain_start
        chain := chain }

/-- Hyperparameters of the model instance (RBM.__init__ keeps n_hidden,
learning_rate and training_epochs; batch_size is the train_rbm default). -/
structure RBMConfig where
  n_hidden : ℕ
  learning_rate : ℝ
  training_epochs : ℕ
  batch_size : ℕ

/-- Default hyperparameters: n_hidden=100, learning_rate=0.1,
training_epochs=5, batch_size=20. -/
noncomputable def defaultConfig : RBMConfig :=
  { n_hidden := 100, learning_rate := 1 / 10, training_epochs := 5
    batch_size := 20 }

/-- Fresh RBM parameters as built by RBM.__init__: W filled with the
seeded numpy uniform draws on the documented symmetric interval (the
stream init stands for those draws, row-major), both biases zero. -/
noncomputable def initRBM (nv nh : ℕ) (init : ℕ → ℝ) : RBMCore :=
  { nv := nv, nh := nh, W := fun i j => init (i * nh + j)
    hbias := fun _ => 0, vbias := fun _ => 0 }

/-- Mutable state of the compiled training function in RBM.train_rbm: the
inner RBM parameters, the persistent PCD chain (a batch_size by n_hidden
matrix, initialized to zeros), the rotating bit counter of the
pseudo-likelihood monitor (a fresh shared variable with value 0), and the
draw stream. -/
structure TrainState where
  rbm : RBMCore
  persistent : Mat
  bitIdx : ℕ
  g : Rng

/-- State of the compiled training function before the first update call:
fresh inner RBM of nItems visible units, all-zero persistent chain,
bit counter 0. -/
noncomputable def trainInit (cfg : RBMConfig) (nItems : ℕ) (g : Rng)
    (init : ℕ → ℝ) : TrainState :=
  { rbm := initRBM nItems cfg.n_hidden init, persistent := zeroMat
    bitIdx := 0, g := g }

/-- Minibatch i of the training matrix:
train_set_x[i * batch_size : (i + 1) * batch_size]. -/
def batchOf (x : Mat) (bs i : ℕ) : Mat := fun r c => x (i * bs + r) c

/-- One call of the compiled function train_rbm(index): evaluate the graph
of RBM.get_cost_updates on the minibatch with the persistent chain
supplied (PCD), apply its update dictionary to the state, and return the
monitoring cost. lr and k are the arguments fixed at graph-construction
time. -/
noncomputable def trainStep (lr : ℝ) (k bs : ℕ) (st : TrainState)
    (batch : Mat) : TrainState × ℝ :=
  let cu := get_cost_updates st.rbm bs batch st.g lr (some st.persistent) k st.bitIdx
  ({ rbm := cu.rbm, persistent := cu.persistent.getD st.persistent
     bitIdx := cu.bitIdx, g := cu.g }, cu.cost)

/-- One training epoch: the inner loop of RBM.train_rbm over all
nb = n_train_batches minibatch indices, in index order. -/
noncomputable def oneEpoch (lr : ℝ) (k bs nb : ℕ) (x : Mat)
    (st : TrainState) : TrainState :=
  (List.range nb).foldl
    (fun st2 i => (trainStep lr k bs st2 (batchOf x bs i)).1) st

/-- Training loop generalized to an arbitrary epoch count and an arbitrary
Gibbs-chain depth k, the two values RBM.train_rbm happens to identify. -/
noncomputable def runTraining (lr : ℝ) (k bs nb : ℕ) (x : Mat)
    (st : TrainState) : ℕ → TrainState
  | 0 => st
  | e + 1 => oneEpoch lr k bs nb x (runTraining lr k bs nb x st e)

/-- RBM.train_rbm: nUsers is the row count of the training matrix,
n_train_batches is the Python 2 integer division nUsers / batch_size, and
the epoch loop runs for training_epochs epochs, each over all minibatch
indices; the chain depth passed to get_cost_updates is the same
training_epochs value. The final state of the compiled function is
returned (the printed per-epoch mean costs are not part of the state). -/
noncomputable def train_rbm (cfg : RBMConfig) (x : Mat) (nUsers nItems : ℕ)
    (g : Rng) (init : ℕ → ℝ) : TrainState :=
  (List.range cfg.training_epochs).foldl
    (fun st _ =>
      (List.range (nUsers / cfg.batch_size)).foldl
        (fun st2 i =>
          (trainStep cfg.learning_rate cfg.training_epochs cfg.batch_size
            st2 (batchOf x cfg.batch_size i)).1)
        st)
    (trainInit cfg nItems g init)

/-- Remove every occurrence of u from a list. -/
def filterNe (u : ℕ) : List ℕ → List ℕ
  | [] => []
  | x :: xs => if x = u then filterNe u xs else x :: filterNe u xs

/-- Distinct elements of a list in first-seen order, the embedding of
pandas unique() as used by RBM._convert. -/
def firstSeen : List ℕ → List ℕ
  | [] => []
  | x :: xs => x :: filterNe x (firstSeen xs)

/-- Position of x in a list, as an Option: the embedding of a Python dict
lookup in the enumeration maps of RBM._convert (None models a KeyError). -/
def idxOf (x : ℕ) : List ℕ → Option ℕ
  | [] => none
  | y :: ys => if y = x then some 0 else (idxOf x ys).map (fun n => n + 1)

/-- Items of one user in the training records, the embedding of the value
groupby(user)[item] assigns to that user in RBM._convert (set semantics:
only membership is ever consulted). -/
def itemsOf (records : List (ℕ × ℕ)) (u : ℕ) : List ℕ :=
  (records.filter (fun p => p.1 = u)).map (fun p => p.2)

/-- The users dictionary of RBM._convert: defined exactly on the users
appearing in the records (a lookup of any other user raises KeyError). -/
def userDataOf (records : List (ℕ × ℕ)) (u : ℕ) : Option (List ℕ) :=
  if ∃ p ∈ records, p.1 = u then some (itemsOf records u) else none

/-- Output of RBM._convert: the dense 0/1 user-by-item matrix and the two
first-seen-order enumeration lists (uid_map and iid_map are idxOf into
userList and itemList respectively). -/
structure Converted where
  matrix : Mat
  nU : ℕ
  nI : ℕ
  userList : List ℕ
  itemList : List ℕ

/-- RBM._convert: build the enumeration maps in first-seen order and set
matrix[uid_map[user], iid_map[item]] = 1 for every observed record. -/
noncomputable def convertData (records : List (ℕ × ℕ)) : Converted :=
  let userList := firstSeen (records.map (fun p => p.1))
  let itemList := firstSeen (records.map (fun p => p.2))
  { matrix := fun r c =>
      if ∃ p ∈ records, idxOf p.1 userList = some r ∧ idxOf p.2 itemList = some c
      then 1 else 0
    nU := userList.length
    nI := itemList.length
    userList := userList
    itemList := itemList }

/-- Everything RBM.fit stores on the instance: the conversion output, the
per-user item sets, and the trained inner RBM state. -/
structure Fitted where
  conv : Converted
  userData : ℕ → Option (List ℕ)
  tstate : TrainState

/-- RBM.fit: convert the records, remember user_data and the maps, and
train the inner RBM on the resulting matrix. -/
noncomputable def fitCompute (cfg : RBMConfig) (records : List (ℕ × ℕ))
    (g : Rng) (init : ℕ → ℝ) : Fitted :=
  let c := convertData records
  { conv := c
    userData := userDataOf records
    tstate := train_rbm cfg c.matrix c.nU c.nI g init }

/-- Python exceptions that the scoring path can raise. -/
inductive PyError where
  | keyErrorUser (u : ℕ)
  | keyErrorItem (i : ℕ)
  | notFitted
deriving DecidableEq

/-- RBM.fit viewed through its error behaviour. On the empty-input path
no operation raises: _convert only iterates over the (empty) records, the
matrix is 0 by 0, n_train_batches is 0, and the epoch loop performs zero
update calls (numpy.mean of the empty cost list prints nan but does not
raise), so the embedding returns ok. -/
noncomputable def fitExc (cfg : RBMConfig) (records : List (ℕ × ℕ))
    (g : Rng) (init : ℕ → ℝ) : Except PyError Fitted :=
  Except.ok (fitCompute cfg records g init)

/-- RBM._get_user_predictions before memoization: look the user up in
user_data (a KeyError for unknown users), build a single-row 0/1 visible
matrix with 1 exactly at the iid_map positions of the user items, run one
gibbs_vhv round trip, and return the visible mean-field matrix vis_mfs
(not the binary sample vis_samples). -/
noncomputable def getUserPredictions (f : Fitted) (u : ℕ) (g : Rng) :
    Except PyError Mat :=
  match f.userData u with
  | none => Except.error (PyError.keyErrorUser u)
  | some items =>
      let matrix : Mat := fun r c =>
        if r = 0 ∧ ∃ i ∈ items, idxOf i f.conv.itemList = some c then 1 else 0
      Except.ok (gibbs_vhv f.tstate.rbm 1 g matrix).1.vmean

/-- Capacity of the functools.lru_cache decorating _get_user_predictions. -/
def lruCap : ℕ := 1000

/-- Value stored for a key in the cache list (most recently used first). -/
noncomputable def lruFind : List (ℕ × Mat) → ℕ → Option Mat
  | [], _ => none
  | e :: rest, u => if e.1 = u then some e.2 else lruFind rest u

/-- Remove the entry of a key from the cache list (first occurrence). -/
noncomputable def lruErase : List (ℕ × Mat) → ℕ → List (ℕ × Mat)
  | [], _ => []
  | e :: rest, u => if e.1 = u then rest else e :: lruErase rest u

/-- State of one model instance: the trained model (None before fit), the
lru_cache content as an association list ordered from most to least
recently used, and the draw stream consumed by prediction runs. The cache
belongs to the decorated class-level function, keyed on (self, user), so
on one instance it is keyed on the user and survives a refit. -/
structure InstState where
  fitted : Option Fitted
  cache : List (ℕ × Mat)
  g : Rng

/-- Effect of RBM.fit on the instance: the trained model is replaced, the
lru_cache content is untouched. -/
noncomputable def fitInst (cfg : RBMConfig) (st : InstState)
    (records : List (ℕ × ℕ)) (gTrain : Rng) (init : ℕ → ℝ) : InstState :=
  { st with fitted := some (fitCompute cfg records gTrain init) }

/-- RBM.get_score: look up iid_map[item] (KeyError if absent), then call
the memoized _get_user_predictions and index its single row. The third
component records whether a fresh prediction run was performed and for
which user (a cache hit, like an error, performs none). A hit moves the
entry to the front; a fresh value is inserted at the front and the least
recently used entry is dropped if the capacity is exceeded; an exception
from the computation is not cached. -/
noncomputable def getScore (st : InstState) (u i : ℕ) :
    Except PyError ℝ × InstState × Option ℕ :=
  match st.fitted with
  | none => (Except.error PyError.notFitted, st, none)
  | some f =>
      match idxOf i f.conv.itemList with
      | none => (Except.error (PyError.keyErrorItem i), st, none)
      | some iid =>
          match lruFind st.cache u with
          | some v =>
              (Except.ok (v 0 iid),
                { st with cache := (u, v) :: lruErase st.cache u }, none)
          | none =>
              match getUserPredictions f u st.g with
              | Except.error e => (Except.error e, st, none)
              | Except.ok v =>
                  (Except.ok (v 0 iid),
                    { st with
                      cache := ((u, v) :: st.cache).take lruCap
                      g := dropRng (f.tstate.rbm.nh + f.tstate.rbm.nv) st.g },
                    some u)

/-- Run a sequence of get_score calls, collecting which calls performed a
fresh prediction run (and for which user). -/
noncomputable def runScores : InstState → List (ℕ × ℕ) → InstState × List (Option ℕ)
  | st, [] => (st, [])
  | st, c :: cs =>
      let r := getScore st c.1 c.2
      let rest := runScores r.2.1 cs
      (rest.1, r.2.2 :: rest.2)

/-- Number of fresh prediction runs performed for user u in a trace. -/
def countComputes (u : ℕ) (trace : List (Option ℕ)) : ℕ :=
  (trace.filter (fun o => o = some u)).length

/-- Names of the tunable hyperparameters reported by RBM.param_details. -/
inductive HyperParam where
  | learning_rate
  | training_epochs
  | n_hidden
deriving DecidableEq

/-- RBM.param_details: the literal 4-tuples of the source, as exact
rationals. -/
def param_details : HyperParam → ℚ × ℚ × ℚ × ℚ
  | HyperParam.learning_rate => (0.01, 0.05, 0.5, 0.1)
  | HyperParam.training_epochs => (1, 50, 5, 15)
  | HyperParam.n_hidden => (10, 1000, 10, 100)

/-! Helper lemmas about the Gibbs chain and the training loop. -/

lemma runChain_length (rb : RBMCore) (m : ℕ) :
    ∀ (k : ℕ) (g : Rng) (h0 : Mat), ((runChain rb m k g h0).1).length = k := by
  intro k
  induction k with
  | zero => intro g h0; rfl
  | succ k ih => intro g h0; simp [runChain, ih]

lemma runChain_get_succ (rb : RBMCore) (m : ℕ) :
    ∀ (k : ℕ) (g : Rng) (h0 : Mat) (i : ℕ)
      (h1 : i + 1 < ((runChain rb m k g h0).1).length),
      ∃ g2 : Rng,
        ((runChain rb m k g h0).1).get ⟨i + 1, h1⟩ =
          (gibbs_hvh rb m g2
            (((runChain rb m k g h0).1).get ⟨i, Nat.lt_of_succ_lt h1⟩).hsample).1 := by
  intro k
  induction k with
  | zero => intro g h0 i h1; simp [runChain] at h1
  | succ k ih =>
      intro g h0 i h1
      cases i with
      | zero =>
          cases k with
          | zero =>
              rw [runChain_length] at h1
              exact absurd h1 (by norm_num)
          | succ k2 =>
              exact ⟨(gibbs_hvh rb m g h0).2, by simp [runChain]⟩
      | succ i2 =>
          have h2 : i2 + 1 <
              ((runChain rb m k (gibbs_hvh rb m g h0).2
                (gibbs_hvh rb m g h0).1.hsample).1).length := by
            have := h1
            simp [runChain] at this
            rwa [runChain_length] at this ⊢
          obtain ⟨g2, hg2⟩ := ih (gibbs_hvh rb m g h0).2
            (gibbs_hvh rb m g h0).1.hsample i2 h2
          exact ⟨g2, by simpa [runChain] using hg2⟩

lemma foldl_range_oneEpoch (lr : ℝ) (k bs nb : ℕ) (x : Mat) :
    ∀ (n : ℕ) (st : TrainState),
      (List.range n).foldl (fun st2 _ => oneEpoch lr k bs nb x st2) st =
        runTraining lr k bs nb x st n := by
  intro n
  induction n with
  | zero => intro st; rfl
  | succ n ih =>
      intro st
      rw [List.range_succ, List.foldl_append, ih]
      rfl

/-! Claim C1. -/

/-- Claim C1: in get_cost_updates the negative-phase Gibbs chain starts
from the freshly sampled hidden state of the input batch when no
persistent state is supplied (standard CD), and from the supplied
persistent state otherwise (PCD); in the PCD case the returned updates
replace the persistent state with the final hidden sample of the k-step
chain, which is the chain of k successive gibbs_hvh transitions started
at the persistent state. -/
theorem c1_cd_pcd_chain (rb : RBMCore) (m : ℕ) (input : Mat) (g : Rng)
    (lr : ℝ) (k b : ℕ) (p : Mat) (hk : 0 < k) :
    (get_cost_updates rb m input g lr none k b).chain_start
        = (sample_h_given_v rb m g input).sample
      ∧ (get_cost_updates rb m input g lr (some p) k b).chain_start = p
      ∧ (get_cost_updates rb m input g lr (some p) k b).chain
          = (runChain rb m k (sample_h_given_v rb m g input).g p).1
      ∧ ((get_cost_updates rb m input g lr (some p) k b).chain).length = k
      ∧ (get_cost_updates rb m input g lr (some p) k b).persistent
          = some (((get_cost_updates rb m input g lr (some p) k b).chain).getLastD
              dfltStep).hsample
      ∧ ((get_cost_updates rb m input g lr (some p) k b).chain) ≠ []
      ∧ ∀ (i : ℕ)
          (h1 : i + 1 < ((get_cost_updates rb m input g lr (some p) k b).chain).length),
          ∃ g2 : Rng,
            ((get_cost_updates rb m input g lr (some p) k b).chain).get ⟨i + 1, h1⟩
              = (gibbs_hvh rb m g2
                  (((get_cost_updates rb m input g lr (some p) k b).chain).get
                    ⟨i, Nat.lt_of_succ_lt h1⟩).hsample).1 := by
  refine ⟨rfl, rfl, rfl, ?_, rfl, ?_, ?_⟩
  · exact runChain_length rb m k (sample_h_given_v rb m g input).g p
  · have hl : ((get_cost_updates rb m input g lr (some p) k b).chain).length = k :=
      runChain_length rb m k (sample_h_given_v rb m g input).g p
    intro hnil
    rw [hnil] at hl
    simp at hl
    omega
  · intro i h1
    exact runChain_get_succ rb m k (sample_h_given_v rb m g input).g p i h1

/-- Concrete inputs shared by the witness theorems. -/
noncomputable def g0 : Rng := fun _ => 0

/-- Concrete weight-initialization stream shared by the witness theorems. -/
noncomputable def init0 : ℕ → ℝ := fun _ => 0

/-- Concrete one-visible-unit, one-hidden-unit RBM shared by witnesses. -/
noncomputable def rb1 : RBMCore :=
  { nv := 1, nh := 1, W := fun _ _ => 0, hbias := fun _ => 0, vbias := fun _ => 0 }

/-- Witness for claim C1 at a concrete RBM with chain depth 1. -/
theorem c1_witness :
    (0 < 1)
      ∧ ((get_cost_updates rb1 1 zeroMat g0 0 none 1 0).chain_start
            = (sample_h_given_v rb1 1 g0 zeroMat).sample
          ∧ (get_cost_updates rb1 1 zeroMat g0 0 (some zeroMat) 1 0).chain_start = zeroMat
          ∧ (get_cost_updates rb1 1 zeroMat g0 0 (some zeroMat) 1 0).chain
              = (runChain rb1 1 1 (sample_h_given_v rb1 1 g0 zeroMat).g zeroMat).1
          ∧ ((get_cost_updates rb1 1 zeroMat g0 0 (some zeroMat) 1 0).chain).length = 1
          ∧ (get_cost_updates rb1 1 zeroMat g0 0 (some zeroMat) 1 0).persistent
              = some (((get_cost_updates rb1 1 zeroMat g0 0 (some zeroMat) 1 0).chain).getLastD
                  dfltStep).hsample
          ∧ ((get_cost_updates rb1 1 zeroMat g0 0 (some zeroMat) 1 0).chain) ≠ []
          ∧ ∀ (i : ℕ)
              (h1 : i + 1 <
                ((get_cost_updates rb1 1 zeroMat g0 0 (some zeroMat) 1 0).chain).length),
              ∃ g2 : Rng,
                ((get_cost_updates rb1 1 zeroMat g0 0 (some zeroMat) 1 0).chain).get
                    ⟨i + 1, h1⟩
                  = (gibbs_hvh rb1 1 g2
                      (((get_cost_updates rb1 1 zeroMat g0 0 (some zeroMat) 1 0).chain).get
                        ⟨i, Nat.lt_of_succ_lt h1⟩).hsample).1) :=
  ⟨by decide, c1_cd_pcd_chain rb1 1 zeroMat g0 0 1 0 zeroMat (by decide)⟩

/-! Claim C2. -/

/-- Claim C2: fit trains for exactly training_epochs epochs and passes the
same training_epochs value as the Gibbs-chain depth k of every update:
train_rbm coincides with the generalized loop runTraining whose epoch
count and chain depth are both cfg.training_epochs, runTraining runs its
epoch body once per epoch, and each epoch folds trainStep with chain depth
k over all minibatch indices. -/
theorem c2_epochs_as_chain_depth (cfg : RBMConfig) (records : List (ℕ × ℕ))
    (x : Mat) (nU nI : ℕ) (g : Rng) (init : ℕ → ℝ) :
    (fitCompute cfg records g init).tstate
        = runTraining cfg.learning_rate cfg.training_epochs cfg.batch_size
            ((convertData records).nU / cfg.batch_size) (convertData records).matrix
            (trainInit cfg (convertData records).nI g init) cfg.training_epochs
      ∧ train_rbm cfg x nU nI g init
          = runTraining cfg.learning_rate cfg.training_epochs cfg.batch_size
              (nU / cfg.batch_size) x (trainInit cfg nI g init) cfg.training_epochs
      ∧ (∀ st : TrainState,
          runTraining cfg.learning_rate cfg.training_epochs cfg.batch_size
            (nU / cfg.batch_size) x st 0 = st)
      ∧ (∀ (st : TrainState) (e : ℕ),
          runTraining cfg.learning_rate cfg.training_epochs cfg.batch_size
              (nU / cfg.batch_size) x st (e + 1)
            = oneEpoch cfg.learning_rate cfg.training_epochs cfg.batch_size
                (nU / cfg.batch_size) x
                (runTraining cfg.learning_rate cfg.training_epochs cfg.batch_size
                  (nU / cfg.batch_size) x st e))
      ∧ (∀ st : TrainState,
          oneEpoch cfg.learning_rate cfg.training_epochs cfg.batch_size
              (nU / cfg.batch_size) x st
            = (List.range (nU / cfg.batch_size)).foldl
                (fun s i =>
                  (trainStep cfg.learning_rate cfg.training_epochs cfg.batch_size s
                    (batchOf x cfg.batch_size i)).1)
                st) := by
  refine ⟨?_, ?_, fun st => rfl, fun st e => rfl, fun st => rfl⟩
  · exact foldl_range_oneEpoch cfg.learning_rate cfg.training_epochs cfg.batch_size
      ((convertData records).nU / cfg.batch_size) (convertData records).matrix
      cfg.training_epochs (trainInit cfg (convertData records).nI g init)
  · exact foldl_range_oneEpoch cfg.learning_rate cfg.training_epochs cfg.batch_size
      (nU / cfg.batch_size) x cfg.training_epochs (trainInit cfg nI g init)

/-! Claim C7. -/

/-- Counterexample to claim C7: reading the param_details tuples as
(min, max, step, default), learning_rate does not range up to 0.5 (its
second component is 0.05), and training_epochs does not default to 5 (its
fourth component is 15). -/
theorem c7_counterexample :
    (¬ ∃ s : ℚ, param_details HyperParam.learning_rate = (1/100, 1/2, s, 1/10))
      ∧ ¬ ∃ s : ℚ, param_details HyperParam.training_epochs = (1, 50, s, 5) := by
  constructor
  · rintro ⟨s, h⟩
    have h2 := congrArg (fun q : ℚ × ℚ × ℚ × ℚ => q.2.1) h
    norm_num [param_details] at h2
  · rintro ⟨s, h⟩
    have h2 := congrArg (fun q : ℚ × ℚ × ℚ × ℚ => q.2.2.2) h
    norm_num [param_details] at h2

/-- Claim C7 as amended: param_details returns the literal tuples
learning_rate (0.01, 0.05, 0.5, 0.1), training_epochs (1, 50, 5, 15) and
n_hidden (10, 1000, 10, 100); under the (min, max, step, default) reading
the learning_rate maximum is 0.05, not 0.5, and the training_epochs
default is 15, not 5. -/
theorem c7_param_details_values :
    param_details HyperParam.learning_rate = (1/100, 1/20, 1/2, 1/10)
      ∧ param_details HyperParam.training_epochs = (1, 50, 5, 15)
      ∧ param_details HyperParam.n_hidden = (10, 1000, 10, 100) := by
  refine ⟨?_, rfl, rfl⟩
  norm_num [param_details, Prod.ext_iff]

/-! Projection lemmas for the PCD branch of get_cost_updates, and
congruence lemmas showing which rows of the input a training update can
depend on. -/

/-- The negative-phase chain of one PCD update: k gibbs_hvh steps started
at the supplied persistent state, with the stream as advanced past the
positive phase. -/
noncomputable def pcdChain (rb : RBMCore) (m k : ℕ) (g : Rng) (p : Mat) :
    List GibbsHVH :=
  (runChain rb m k (dropRng (m * rb.nh) g) p).1

/-- Final visible sample of the PCD negative-phase chain. -/
noncomputable def pcdChainEnd (rb : RBMCore) (m k : ℕ) (g : Rng) (p : Mat) : Mat :=
  ((pcdChain rb m k g p).getLastD dfltStep).vsample

/-- Final hidden sample of the PCD negative-phase chain. -/
noncomputable def pcdChainLastH (rb : RBMCore) (m k : ℕ) (g : Rng) (p : Mat) : Mat :=
  ((pcdChain rb m k g p).getLastD dfltStep).hsample

lemma gcu_some_rbm (rb : RBMCore) (m : ℕ) (x : Mat) (g : Rng) (lr : ℝ)
    (p : Mat) (k b : ℕ) :
    (get_cost_updates rb m x g lr (some p) k b).rbm =
      { rb with
        W := fun i j => rb.W i j - gradW rb m x (pcdChainEnd rb m k g p) i j * lr
        hbias := fun j => rb.hbias j - gradHbias rb m x (pcdChainEnd rb m k g p) j * lr
        vbias := fun i => rb.vbias i - gradVbias rb m x (pcdChainEnd rb m k g p) i * lr } :=
  rfl

lemma gcu_some_persistent (rb : RBMCore) (m : ℕ) (x : Mat) (g : Rng) (lr : ℝ)
    (p : Mat) (k b : ℕ) :
    (get_cost_updates rb m x g lr (some p) k b).persistent =
      some (pcdChainLastH rb m k g p) :=
  rfl

lemma gcu_some_bitIdx (rb : RBMCore) (m : ℕ) (x : Mat) (g : Rng) (lr : ℝ)
    (p : Mat) (k b : ℕ) :
    (get_cost_updates rb m x g lr (some p) k b).bitIdx = (b + 1) % rb.nv :=
  rfl

lemma gcu_some_g (rb : RBMCore) (m : ℕ) (x : Mat) (g : Rng) (lr : ℝ)
    (p : Mat) (k b : ℕ) :
    (get_cost_updates rb m x g lr (some p) k b).g =
      (runChain rb m k (dropRng (m * rb.nh) g) p).2 :=
  rfl

lemma gcu_some_cost (rb : RBMCore) (m : ℕ) (x : Mat) (g : Rng) (lr : ℝ)
    (p : Mat) (k b : ℕ) :
    (get_cost_updates rb m x g lr (some p) k b).cost =
      get_pseudo_likelihood_cost rb m x b :=
  rfl

lemma rowMean_congr (m : ℕ) {f f2 : ℕ → ℝ} (h : ∀ r < m, f r = f2 r) :
    rowMean m f = rowMean m f2 := by
  unfold rowMean
  congr 1
  exact Finset.sum_congr rfl fun r hr => h r (Finset.mem_range.mp hr)

lemma gradW_congr (rb : RBMCore) (m : ℕ) {x y : Mat} (ce : Mat)
    (h : ∀ r < m, x r = y r) :
    gradW rb m x ce = gradW rb m y ce := by
  funext i j
  unfold gradW
  congr 1
  exact rowMean_congr m fun r hr => by rw [h r hr]

lemma gradHbias_congr (rb : RBMCore) (m : ℕ) {x y : Mat} (ce : Mat)
    (h : ∀ r < m, x r = y r) :
    gradHbias rb m x ce = gradHbias rb m y ce := by
  funext j
  unfold gradHbias
  congr 1
  exact rowMean_congr m fun r hr => by rw [h r hr]

lemma gradVbias_congr (rb : RBMCore) (m : ℕ) {x y : Mat} (ce : Mat)
    (h : ∀ r < m, x r = y r) :
    gradVbias rb m x ce = gradVbias rb m y ce := by
  funext i
  unfold gradVbias
  congr 1
  exact rowMean_congr m fun r hr => by rw [h r hr]

lemma pseudo_likelihood_congr (rb : RBMCore) (m : ℕ) {x y : Mat} (b : ℕ)
    (h : ∀ r < m, x r = y r) :
    get_pseudo_likelihood_cost rb m x b = get_pseudo_likelihood_cost rb m y b := by
  unfold get_pseudo_likelihood_cost
  refine rowMean_congr m fun r hr => ?_
  dsimp only
  have hx : roundMat x r = roundMat y r := by
    funext c
    unfold roundMat
    rw [h r hr]
  have hf : flipCol b (roundMat x) r = flipCol b (roundMat y) r := by
    funext c
    unfold flipCol roundMat
    rw [h r hr]
  rw [hx, hf]

lemma trainStep_congr (lr : ℝ) (k bs : ℕ) (st : TrainState) {x y : Mat}
    (h : ∀ r < bs, x r = y r) :
    trainStep lr k bs st x = trainStep lr k bs st y := by
  show
    (({ rbm := (get_cost_updates st.rbm bs x st.g lr (some st.persistent) k st.bitIdx).rbm
        persistent := (get_cost_updates st.rbm bs x st.g lr (some st.persistent) k
          st.bitIdx).persistent.getD st.persistent
        bitIdx := (get_cost_updates st.rbm bs x st.g lr (some st.persistent) k st.bitIdx).bitIdx
        g := (get_cost_updates st.rbm bs x st.g lr (some st.persistent) k st.bitIdx).g } :
          TrainState),
      (get_cost_updates st.rbm bs x st.g lr (some st.persistent) k st.bitIdx).cost) =
    (({ rbm := (get_cost_updates st.rbm bs y st.g lr (some st.persistent) k st.bitIdx).rbm
        persistent := (get_cost_updates st.rbm bs y st.g lr (some st.persistent) k
          st.bitIdx).persistent.getD st.persistent
        bitIdx := (get_cost_updates st.rbm bs y st.g lr (some st.persistent) k st.bitIdx).bitIdx
        g := (get_cost_updates st.rbm bs y st.g lr (some st.persistent) k st.bitIdx).g } :
          TrainState),
      (get_cost_updates st.rbm bs y st.g lr (some st.persistent) k st.bitIdx).cost)
  rw [gcu_some_rbm, gcu_some_rbm, gcu_some_persistent, gcu_some_persistent,
    gcu_some_bitIdx, gcu_some_bitIdx, gcu_some_g, gcu_some_g,
    gcu_some_cost, gcu_some_cost,
    gradW_congr st.rbm bs (pcdChainEnd st.rbm bs k st.g st.persistent) h,
    gradHbias_congr st.rbm bs (pcdChainEnd st.rbm bs k st.g st.persistent) h,
    gradVbias_congr st.rbm bs (pcdChainEnd st.rbm bs k st.g st.persistent) h,
    pseudo_likelihood_congr st.rbm bs st.bitIdx h]

lemma batchOf_row_lt (bs nb i r : ℕ) (hi : i < nb) (hr : r < bs) :
    i * bs + r < nb * bs := by
  have h1 : i * bs + r < (i + 1) * bs := by
    rw [Nat.succ_mul]
    omega
  have h2 : (i + 1) * bs ≤ nb * bs := Nat.mul_le_mul_right bs (by omega)
  omega

lemma oneEpoch_congr (lr : ℝ) (k bs nb : ℕ) {x y : Mat}
    (h : ∀ r < nb * bs, ∀ c, x r c = y r c) (st : TrainState) :
    oneEpoch lr k bs nb x st = oneEpoch lr k bs nb y st := by
  unfold oneEpoch
  refine List.foldl_ext _ _ _ ?_
  intro st2 i hi
  have hi2 : i < nb := List.mem_range.mp hi
  have hbatch : ∀ r < bs, batchOf x bs i r = batchOf y bs i r := by
    intro r hr
    funext c
    exact h (i * bs + r) (batchOf_row_lt bs nb i r hi2 hr) c
  rw [trainStep_congr lr k bs st2 hbatch]

lemma train_rbm_congr (cfg : RBMConfig) {x y : Mat} (nU nI : ℕ) (g : Rng)
    (init : ℕ → ℝ)
    (h : ∀ r < (nU / cfg.batch_size) * cfg.batch_size, ∀ c, x r c = y r c) :
    train_rbm cfg x nU nI g init = train_rbm cfg y nU nI g init := by
  unfold train_rbm
  refine List.foldl_ext _ _ _ ?_
  intro st e _
  exact oneEpoch_congr cfg.learning_rate cfg.training_epochs cfg.batch_size
    (nU / cfg.batch_size) h st

/-! Claim C3. -/

/-- Claim C3: each training epoch processes exactly
floor(n_users / batch_size) minibatches; minibatch i consists of the
batch_size consecutive rows i * batch_size .. (i + 1) * batch_size - 1 of
the training matrix, taken in index order, all of them in range; and the
rows beyond the last full minibatch are never used: two training matrices
that agree on the first floor(n_users / batch_size) * batch_size rows
train to identical states. -/
theorem c3_minibatching (cfg : RBMConfig) (x y : Mat) (nU nI : ℕ) (g : Rng)
    (init : ℕ → ℝ) :
    nU / cfg.batch_size = ⌊(nU : ℚ) / (cfg.batch_size : ℚ)⌋₊
      ∧ (∀ i r c, batchOf x cfg.batch_size i r c = x (i * cfg.batch_size + r) c)
      ∧ (∀ i < nU / cfg.batch_size, ∀ r < cfg.batch_size,
          i * cfg.batch_size + r < nU)
      ∧ (∀ st : TrainState,
          oneEpoch cfg.learning_rate cfg.training_epochs cfg.batch_size
              (nU / cfg.batch_size) x st
            = (List.range (nU / cfg.batch_size)).foldl
                (fun s i =>
                  (trainStep cfg.learning_rate cfg.training_epochs cfg.batch_size s
                    (batchOf x cfg.batch_size i)).1)
                st)
      ∧ ((∀ r < (nU / cfg.batch_size) * cfg.batch_size, ∀ c, x r c = y r c) →
          train_rbm cfg x nU nI g init = train_rbm cfg y nU nI g init) := by
  refine ⟨(Nat.floor_div_eq_div nU cfg.batch_size).symm, fun i r c => rfl,
    ?_, fun st => rfl, ?_⟩
  · intro i hi r hr
    have h1 : i * cfg.batch_size + r < (nU / cfg.batch_size) * cfg.batch_size :=
      batchOf_row_lt cfg.batch_size (nU / cfg.batch_size) i r hi hr
    have h2 : (nU / cfg.batch_size) * cfg.batch_size ≤ nU :=
      Nat.div_mul_le_self nU cfg.batch_size
    omega
  · intro h
    exact train_rbm_congr cfg nU nI g init h

/-- Witness for claim C3 on a concrete 2-user, 1-item setup with
batch_size 1 and matrices that agree on the batched rows. -/
theorem c3_witness :
    ((1 : ℕ) < 2 / 1 ∧ (0 : ℕ) < 1)
      ∧ (2 / 1 = ⌊((2 : ℕ) : ℚ) / ((1 : ℕ) : ℚ)⌋₊
          ∧ (∀ i r c, batchOf zeroMat 1 i r c = zeroMat (i * 1 + r) c)
          ∧ (∀ i < 2 / 1, ∀ r < 1, i * 1 + r < 2)
          ∧ (∀ st : TrainState,
              oneEpoch (1 : ℝ) 1 1 (2 / 1) zeroMat st
                = (List.range (2 / 1)).foldl
                    (fun s i => (trainStep (1 : ℝ) 1 1 s (batchOf zeroMat 1 i)).1) st)
          ∧ ((∀ r < (2 / 1) * 1, ∀ c, zeroMat r c = zeroMat r c) →
              train_rbm { n_hidden := 1, learning_rate := 1, training_epochs := 1
                          batch_size := 1 } zeroMat 2 1 g0 init0
                = train_rbm { n_hidden := 1, learning_rate := 1, training_epochs := 1
                              batch_size := 1 } zeroMat 2 1 g0 init0)) :=
  ⟨by decide,
    c3_minibatching
      { n_hidden := 1, learning_rate := 1, training_epochs := 1, batch_size := 1 }
      zeroMat zeroMat 2 1 g0 init0⟩

/-! Claim C4. -/

lemma trainStep_rbm_nv (lr : ℝ) (k bs : ℕ) (st : TrainState) (batch : Mat) :
    (trainStep lr k bs st batch).1.rbm.nv = st.rbm.nv := rfl

lemma trainStep_bitIdx (lr : ℝ) (k bs : ℕ) (st : TrainState) (batch : Mat) :
    (trainStep lr k bs st batch).1.bitIdx = (st.bitIdx + 1) % st.rbm.nv := rfl

lemma bitIdx_fold (lr : ℝ) (k bs : ℕ) :
    ∀ (batches : List Mat) (st : TrainState), st.bitIdx < st.rbm.nv →
      (batches.foldl (fun s b2 => (trainStep lr k bs s b2).1) st).bitIdx
        = (st.bitIdx + batches.length) % st.rbm.nv := by
  intro batches
  induction batches with
  | nil =>
      intro st hb
      simp [Nat.mod_eq_of_lt hb]
  | cons bt rest ih =>
      intro st hb
      have hnv : 0 < st.rbm.nv := Nat.lt_of_le_of_lt (Nat.zero_le _) hb
      have h1 : (trainStep lr k bs st bt).1.bitIdx
          < (trainStep lr k bs st bt).1.rbm.nv := by
        rw [trainStep_rbm_nv, trainStep_bitIdx]
        exact Nat.mod_lt _ hnv
      have h2 := ih (trainStep lr k bs st bt).1 h1
      rw [trainStep_rbm_nv, trainStep_bitIdx] at h2
      simp only [List.foldl_cons]
      rw [h2, Nat.mod_add_mod, List.length_cons]
      congr 1
      omega

/-- Claim C4: under PCD, the monitoring cost of one training update is the
pseudo-likelihood proxy mean(n_visible * log(sigmoid(free_energy(flipped)
- free_energy(original)))), where original is the input batch rounded to
the nearest integer and flipped differs from it in exactly the column of
the rotating bit index; the bit index starts at 0 in the fresh training
state and advances by +1 modulo n_visible after each update call, so that
after j calls it equals (initial + j) mod n_visible. -/
theorem c4_pcd_monitoring_cost (rb : RBMCore) (m b : ℕ) (input : Mat)
    (lr : ℝ) (k bs : ℕ) (st : TrainState) (batch : Mat) (batches : List Mat)
    (cfg : RBMConfig) (nI : ℕ) (g : Rng) (init : ℕ → ℝ)
    (hb : st.bitIdx < st.rbm.nv) :
    (get_pseudo_likelihood_cost rb m input b
        = rowMean m (fun r => (rb.nv : ℝ) * Real.log (sigmoid
            (free_energy rb (flipCol b (roundMat input) r)
              - free_energy rb (roundMat input r)))))
      ∧ (∀ r c, (c = b → flipCol b (roundMat input) r c ≠ roundMat input r c)
          ∧ (c ≠ b → flipCol b (roundMat input) r c = roundMat input r c))
      ∧ (trainStep lr k bs st batch).2
          = get_pseudo_likelihood_cost st.rbm bs batch st.bitIdx
      ∧ (trainStep lr k bs st batch).1.bitIdx = (st.bitIdx + 1) % st.rbm.nv
      ∧ (trainInit cfg nI g init).bitIdx = 0
      ∧ (batches.foldl (fun s b2 => (trainStep lr k bs s b2).1) st).bitIdx
          = (st.bitIdx + batches.length) % st.rbm.nv := by
  refine ⟨rfl, ?_, gcu_some_cost st.rbm bs batch st.g lr st.persistent k st.bitIdx,
    trainStep_bitIdx lr k bs st batch, rfl, bitIdx_fold lr k bs batches st hb⟩
  intro r c
  constructor
  · intro hcb
    subst hcb
    unfold flipCol roundMat
    rw [if_pos rfl]
    intro heq
    have h2 : ((1 : ℤ) : ℝ) = ((2 * round (input r c) : ℤ) : ℝ) := by
      push_cast
      linarith
    have h3 : (1 : ℤ) = 2 * round (input r c) := Int.cast_injective h2
    omega
  · intro hcb
    unfold flipCol
    rw [if_neg hcb]

/-- Witness for claim C4 at a concrete one-visible-unit training state. -/
theorem c4_witness :
    ((trainInit { n_hidden := 1, learning_rate := 1, training_epochs := 1
                  batch_size := 1 } 1 g0 init0).bitIdx
        < (trainInit { n_hidden := 1, learning_rate := 1, training_epochs := 1
                       batch_size := 1 } 1 g0 init0).rbm.nv)
      ∧ ((get_pseudo_likelihood_cost rb1 1 zeroMat 0
            = rowMean 1 (fun r => ((rb1.nv : ℕ) : ℝ) * Real.log (sigmoid
                (free_energy rb1 (flipCol 0 (roundMat zeroMat) r)
                  - free_energy rb1 (roundMat zeroMat r)))))
          ∧ (∀ r c, (c = 0 → flipCol 0 (roundMat zeroMat) r c ≠ roundMat zeroMat r c)
              ∧ (c ≠ 0 → flipCol 0 (roundMat zeroMat) r c = roundMat zeroMat r c))
          ∧ (trainStep (1 : ℝ) 1 1
                (trainInit { n_hidden := 1, learning_rate := 1, training_epochs := 1
                             batch_size := 1 } 1 g0 init0) zeroMat).2
              = get_pseudo_likelihood_cost
                  (trainInit { n_hidden := 1, learning_rate := 1, training_epochs := 1
                               batch_size := 1 } 1 g0 init0).rbm 1 zeroMat
                  (trainInit { n_hidden := 1, learning_rate := 1, training_epochs := 1
                               batch_size := 1 } 1 g0 init0).bitIdx
          ∧ (trainStep (1 : ℝ) 1 1
                (trainInit { n_hidden := 1, learning_rate := 1, training_epochs := 1
                             batch_size := 1 } 1 g0 init0) zeroMat).1.bitIdx
              = ((trainInit { n_hidden := 1, learning_rate := 1, training_epochs := 1
                              batch_size := 1 } 1 g0 init0).bitIdx + 1)
                  % (trainInit { n_hidden := 1, learning_rate := 1, training_epochs := 1
                                 batch_size := 1 } 1 g0 init0).rbm.nv
          ∧ (trainInit { n_hidden := 1, learning_rate := 1, training_epochs := 1
                         batch_size := 1 } 1 g0 init0).bitIdx = 0
          ∧ (([] : List Mat).foldl (fun s b2 => (trainStep (1 : ℝ) 1 1 s b2).1)
                (trainInit { n_hidden := 1, learning_rate := 1, training_epochs := 1
                             batch_size := 1 } 1 g0 init0)).bitIdx
              = ((trainInit { n_hidden := 1, learning_rate := 1, training_epochs := 1
                              batch_size := 1 } 1 g0 init0).bitIdx
                  + ([] : List Mat).length)
                  % (trainInit { n_hidden := 1, learning_rate := 1, training_epochs := 1
                                 batch_size := 1 } 1 g0 init0).rbm.nv) :=
  ⟨by decide,
    c4_pcd_monitoring_cost rb1 1 0 zeroMat 1 1 1
      (trainInit { n_hidden := 1, learning_rate := 1, training_epochs := 1
                   batch_size := 1 } 1 g0 init0) zeroMat []
      { n_hidden := 1, learning_rate := 1, training_epochs := 1, batch_size := 1 }
      1 g0 init0 (by decide)⟩

/-! Claim C5. -/

/-- The single-row visible matrix built inside _get_user_predictions: row
0 holds 1 exactly at the iid_map positions of the user items, everything
else is 0. -/
noncomputable def userIndicator (f : Fitted) (items : List ℕ) : Mat :=
  fun r c =>
    if r = 0 ∧ ∃ i ∈ items, idxOf i f.conv.itemList = some c then 1 else 0

/-- Claim C5: for a user seen during fit, the prediction vector is the
visible mean-field output of exactly one gibbs_vhv transition applied to
the single-row 0/1 indicator of the user items; that output is one
hidden-then-visible round trip (sample hidden given the indicator, then
the visible mean of that hidden sample), and each entry is the sigmoid
mean-field probability, not the Bernoulli visible sample. The indicator
row has value 1 exactly at the item-map positions of the user items and
value 0 elsewhere and on every other row. -/
theorem c5_prediction_one_gibbs_step (f : Fitted) (u : ℕ) (items : List ℕ)
    (g : Rng) (hud : f.userData u = some items) :
    (getUserPredictions f u g
        = Except.ok (gibbs_vhv f.tstate.rbm 1 g (userIndicator f items)).1.vmean)
      ∧ ((gibbs_vhv f.tstate.rbm 1 g (userIndicator f items)).1.vmean
          = (sample_v_given_h f.tstate.rbm 1
              (sample_h_given_v f.tstate.rbm 1 g (userIndicator f items)).g
              (sample_h_given_v f.tstate.rbm 1 g (userIndicator f items)).sample).mean)
      ∧ (∀ r c, (gibbs_vhv f.tstate.rbm 1 g (userIndicator f items)).1.vmean r c
          = sigmoid (hwb f.tstate.rbm
              ((sample_h_given_v f.tstate.rbm 1 g (userIndicator f items)).sample r) c))
      ∧ (∀ c, (userIndicator f items 0 c = 1 ∨ userIndicator f items 0 c = 0)
          ∧ (userIndicator f items 0 c = 1
              ↔ ∃ i ∈ items, idxOf i f.conv.itemList = some c))
      ∧ (∀ r c, r ≠ 0 → userIndicator f items r c = 0) := by
  refine ⟨?_, rfl, fun r c => rfl, ?_, ?_⟩
  · simp only [getUserPredictions, hud]
    rfl
  · intro c
    unfold userIndicator
    by_cases hc : ∃ i ∈ items, idxOf i f.conv.itemList = some c
    · rw [if_pos ⟨rfl, hc⟩]
      exact ⟨Or.inl rfl, iff_of_true rfl hc⟩
    · rw [if_neg (fun hand => hc hand.2)]
      exact ⟨Or.inr rfl, iff_of_false one_ne_zero.symm hc⟩
  · intro r c hr
    unfold userIndicator
    rw [if_neg (fun hand => hr hand.1)]

/-- Concrete configuration shared by witness theorems. -/
noncomputable def cfg1 : RBMConfig :=
  { n_hidden := 1, learning_rate := 1, training_epochs := 1, batch_size := 1 }

/-- Concrete fitted model on the single record (user 7, item 3), shared by
witness and counterexample theorems. -/
noncomputable def fitA : Fitted := fitCompute cfg1 [(7, 3)] g0 init0

/-- Witness for claim C5 on the concrete fitted model fitA and user 7. -/
theorem c5_witness :
    fitA.userData 7 = some [3]
      ∧ ((getUserPredictions fitA 7 g0
            = Except.ok (gibbs_vhv fitA.tstate.rbm 1 g0 (userIndicator fitA [3])).1.vmean)
          ∧ ((gibbs_vhv fitA.tstate.rbm 1 g0 (userIndicator fitA [3])).1.vmean
              = (sample_v_given_h fitA.tstate.rbm 1
                  (sample_h_given_v fitA.tstate.rbm 1 g0 (userIndicator fitA [3])).g
                  (sample_h_given_v fitA.tstate.rbm 1 g0 (userIndicator fitA [3])).sample).mean)
          ∧ (∀ r c, (gibbs_vhv fitA.tstate.rbm 1 g0 (userIndicator fitA [3])).1.vmean r c
              = sigmoid (hwb fitA.tstate.rbm
                  ((sample_h_given_v fitA.tstate.rbm 1 g0
                    (userIndicator fitA [3])).sample r) c))
          ∧ (∀ c, (userIndicator fitA [3] 0 c = 1 ∨ userIndicator fitA [3] 0 c = 0)
              ∧ (userIndicator fitA [3] 0 c = 1
                  ↔ ∃ i ∈ [3], idxOf i fitA.conv.itemList = some c))
          ∧ (∀ r c, r ≠ 0 → userIndicator fitA [3] r c = 0)) :=
  ⟨by decide, c5_prediction_one_gibbs_step fitA 7 [3] g0 (by decide)⟩

/-! Claim C9. -/

lemma foldl_const_state {α β : Type _} :
    ∀ (l : List β) (a : α), l.foldl (fun s _ => s) a = a := by
  intro l
  induction l with
  | nil => intro a; rfl
  | cons x xs ih => intro a; rw [List.foldl_cons]; exact ih a

/-- Counterexample to claim C9: fit on an empty record list does not
raise; it returns the fitted model built from the degenerate 0 by 0
matrix. -/
theorem c9_counterexample :
    fitExc cfg1 [] g0 init0 = Except.ok (fitCompute cfg1 [] g0 init0) := rfl

/-- Claim C9 as amended: calling fit with no interaction records completes
without raising: the conversion yields a 0-user, 0-item matrix, every
epoch processes zero minibatches, and the trained state is exactly the
initial state (the parameters are never updated). -/
theorem c9_empty_fit_completes (cfg : RBMConfig) (g : Rng) (init : ℕ → ℝ) :
    fitExc cfg [] g init = Except.ok (fitCompute cfg [] g init)
      ∧ (convertData []).nU = 0
      ∧ (convertData []).nI = 0
      ∧ (convertData []).nU / cfg.batch_size = 0
      ∧ (fitCompute cfg [] g init).tstate = trainInit cfg (convertData []).nI g init := by
  have hnU : (convertData ([] : List (ℕ × ℕ))).nU = 0 := rfl
  refine ⟨rfl, rfl, rfl, by rw [hnU]; exact Nat.zero_div _, ?_⟩
  show train_rbm cfg (convertData []).matrix (convertData []).nU (convertData []).nI g init
    = trainInit cfg (convertData []).nI g init
  unfold train_rbm
  rw [hnU]
  simp only [Nat.zero_div, List.range_zero, List.foldl_nil]
  exact foldl_const_state _ _

/-! Claim C10. -/

/-- Counterexample to claim C10: on the fitted model fitA (trained on the
single record of user 7), requesting a prediction for user 1, who has
zero observed items, raises a KeyError instead of succeeding. -/
theorem c10_counterexample :
    getUserPredictions fitA 1 g0 = Except.error (PyError.keyErrorUser 1) := rfl

/-- Claim C10 as amended: for a fitted model, a user with zero observed
items is exactly a user absent from the users dictionary built by fit,
and requesting a prediction for such a user raises a KeyError (fails)
rather than producing an all-zero-input prediction. -/
theorem c10_zero_item_user_fails (f : Fitted) (u : ℕ) (g : Rng)
    (records : List (ℕ × ℕ)) (cfg : RBMConfig) (g2 : Rng) (init : ℕ → ℝ)
    (hud : f.userData u = none) (hu : ¬ ∃ p ∈ records, p.1 = u) :
    getUserPredictions f u g = Except.error (PyError.keyErrorUser u)
      ∧ (fitCompute cfg records g2 init).userData u = none := by
  constructor
  · simp only [getUserPredictions, hud]
  · show userDataOf records u = none
    unfold userDataOf
    rw [if_neg hu]

/-- Witness for claim C10 as amended, on fitA and the unseen user 1. -/
theorem c10_witness :
    (fitA.userData 1 = none ∧ ¬ ∃ p ∈ [((7 : ℕ), (3 : ℕ))], p.1 = 1)
      ∧ (getUserPredictions fitA 1 init0 = Except.error (PyError.keyErrorUser 1)
          ∧ (fitCompute cfg1 [(7, 3)] g0 init0).userData 1 = none) :=
  ⟨⟨by decide, by decide⟩,
    c10_zero_item_user_fails fitA 1 init0 [(7, 3)] cfg1 g0 init0 (by decide) (by decide)⟩

/-! Claim C8. -/

/-- Fresh instance holding the model fitA with an empty prediction cache. -/
noncomputable def instA : InstState := { fitted := some fitA, cache := [], g := g0 }

/-- Instance state after scoring user 7 once (one fresh prediction run,
now cached). -/
noncomputable def instA1 : InstState := (getScore instA 7 3).2.1

/-- Instance state after refitting the same instance on a second record
list: new trained model, cache untouched. -/
noncomputable def instA2 : InstState := fitInst cfg1 instA1 [(7, 3), (7, 4)] g0 init0

/-- The prediction vector cached for user 7 before the refit. -/
noncomputable def vA : Mat :=
  (gibbs_vhv fitA.tstate.rbm 1 g0 (userIndicator fitA [3])).1.vmean

/-- Counterexample to claim C8: on the same instance, score user 7, refit
on different records, and score user 7 again: the second call performs no
fresh prediction run, leaves the cache exactly as before the refit, and
returns the same value as the pre-refit call (served from the vector
cached before the refit, not computed from the newly trained
parameters). -/
theorem c8_counterexample :
    (getScore instA2 7 3).2.2 = none
      ∧ (getScore instA2 7 3).2.1.cache = (getScore instA 7 3).2.1.cache
      ∧ (getScore instA2 7 3).1 = (getScore instA 7 3).1 :=
  ⟨rfl, rfl, rfl⟩

/-- Claim C8 as amended: the prediction cache is not invalidated by
retraining: it is keyed only on the user and survives fit, so after a
second fit on the same instance, a get_score for a user still in the
cache is served from the entry recorded before the refit (no fresh
prediction run from the new parameters), and the entry is merely moved to
the front of the cache. -/
theorem c8_cache_survives_refit (st : InstState) (records : List (ℕ × ℕ))
    (cfg : RBMConfig) (gT : Rng) (init : ℕ → ℝ) (u i iid : ℕ) (v : Mat)
    (hv : lruFind st.cache u = some v)
    (hi : idxOf i (fitCompute cfg records gT init).conv.itemList = some iid) :
    (getScore (fitInst cfg st records gT init) u i).1 = Except.ok (v 0 iid)
      ∧ (getScore (fitInst cfg st records gT init) u i).2.2 = none
      ∧ (getScore (fitInst cfg st records gT init) u i).2.1.cache
          = (u, v) :: lruErase st.cache u := by
  simp [getScore, fitInst, hi, hv]

/-- Witness for claim C8 as amended, on the concrete refitted instance. -/
theorem c8_witness :
    (lruFind instA1.cache 7 = some vA
        ∧ idxOf 3 (fitCompute cfg1 [(7, 3), (7, 4)] g0 init0).conv.itemList = some 0)
      ∧ ((getScore (fitInst cfg1 instA1 [(7, 3), (7, 4)] g0 init0) 7 3).1
            = Except.ok (vA 0 0)
          ∧ (getScore (fitInst cfg1 instA1 [(7, 3), (7, 4)] g0 init0) 7 3).2.2 = none
          ∧ (getScore (fitInst cfg1 instA1 [(7, 3), (7, 4)] g0 init0) 7 3).2.1.cache
              = (7, vA) :: lruErase instA1.cache 7) :=
  ⟨⟨rfl, by decide⟩,
    c8_cache_survives_refit instA1 [(7, 3), (7, 4)] cfg1 g0 init0 7 3 0 vA rfl (by decide)⟩

/-! Claim C6: list utilities about the cache keys. -/

/-- Keys of the cache entries, most recently used first. -/
noncomputable def keysOf (cache : List (ℕ × Mat)) : List ℕ :=
  cache.map (fun e => e.1)

/-- Remove the first occurrence of u from a list of keys. -/
def removeFirst (u : ℕ) : List ℕ → List ℕ
  | [] => []
  | x :: xs => if x = u then xs else x :: removeFirst u xs

lemma keysOf_nil : keysOf [] = [] := rfl

lemma keysOf_cons (e : ℕ × Mat) (rest : List (ℕ × Mat)) :
    keysOf (e :: rest) = e.1 :: keysOf rest := rfl

lemma keysOf_take (n : ℕ) (cache : List (ℕ × Mat)) :
    keysOf (cache.take n) = (keysOf cache).take n :=
  List.map_take _ _ _

lemma keysOf_length (cache : List (ℕ × Mat)) :
    (keysOf cache).length = cache.length :=
  List.length_map _ _

lemma keysOf_lruErase : ∀ (cache : List (ℕ × Mat)) (u : ℕ),
    keysOf (lruErase cache u) = removeFirst u (keysOf cache) := by
  intro cache u
  induction cache with
  | nil => rfl
  | cons e rest ih =>
      by_cases he : e.1 = u
      · rw [lruErase, if_pos he, keysOf_cons, removeFirst, if_pos he]
      · rw [lruErase, if_neg he, keysOf_cons, keysOf_cons, removeFirst, if_neg he, ih]

lemma lruFind_eq_none : ∀ (cache : List (ℕ × Mat)) (u : ℕ),
    lruFind cache u = none ↔ u ∉ keysOf cache := by
  intro cache u
  induction cache with
  | nil => simp [lruFind, keysOf_nil]
  | cons e rest ih =>
      by_cases he : e.1 = u
      · simp [lruFind, if_pos he, keysOf_cons, he]
      · simp only [lruFind, if_neg he, keysOf_cons, List.mem_cons, ih]
        constructor
        · intro h2 h3
          rcases h3 with h4 | h4
          · exact he h4.symm
          · exact h2 h4
        · intro h2 h3
          exact h2 (Or.inr h3)

lemma lruFind_some_mem (cache : List (ℕ × Mat)) (u : ℕ) (v : Mat)
    (h : lruFind cache u = some v) : u ∈ keysOf cache := by
  by_contra hn
  rw [(lruFind_eq_none cache u).mpr hn] at h
  cases h

lemma lruErase_length : ∀ (cache : List (ℕ × Mat)) (u : ℕ),
    u ∈ keysOf cache → (lruErase cache u).length + 1 = cache.length := by
  intro cache u
  induction cache with
  | nil => intro h; cases h
  | cons e rest ih =>
      intro h
      by_cases he : e.1 = u
      · rw [lruErase, if_pos he, List.length_cons]
      · rw [keysOf_cons, List.mem_cons] at h
        rcases h with h2 | h2
        · exact absurd h2.symm he
        · rw [lruErase, if_neg he, List.length_cons, List.length_cons, ih h2]

lemma mem_removeFirst_ne (u x : ℕ) (hxu : x ≠ u) :
    ∀ l : List ℕ, (x ∈ removeFirst u l ↔ x ∈ l) := by
  intro l
  induction l with
  | nil => simp [removeFirst]
  | cons y ys ih =>
      by_cases hy : y = u
      · rw [removeFirst, if_pos hy, List.mem_cons]
        constructor
        · exact fun h => Or.inr h
        · intro h
          rcases h with h2 | h2
          · exact absurd (h2.trans hy) hxu
          · exact h2
      · rw [removeFirst, if_neg hy, List.mem_cons, List.mem_cons, ih]

lemma mem_removeFirst_subset (u x : ℕ) :
    ∀ l : List ℕ, x ∈ removeFirst u l → x ∈ l := by
  intro l
  induction l with
  | nil => intro h; cases h
  | cons y ys ih =>
      intro h
      by_cases hy : y = u
      · rw [removeFirst, if_pos hy] at h
        exact List.mem_cons_of_mem y h
      · rw [removeFirst, if_neg hy, List.mem_cons] at h
        rcases h with h2 | h2
        · exact h2 ▸ List.mem_cons_self y ys
        · exact List.mem_cons_of_mem y (ih h2)

lemma not_mem_removeFirst_self (u : ℕ) :
    ∀ l : List ℕ, l.Nodup → u ∉ removeFirst u l := by
  intro l
  induction l with
  | nil => intro _ h; cases h
  | cons y ys ih =>
      intro hnd
      rw [List.nodup_cons] at hnd
      by_cases hy : y = u
      · rw [removeFirst, if_pos hy]
        intro h
        exact hnd.1 (hy ▸ h)
      · rw [removeFirst, if_neg hy, List.mem_cons]
        intro h
        rcases h with h2 | h2
        · exact hy h2.symm
        · exact ih hnd.2 h2

lemma nodup_removeFirst (u : ℕ) :
    ∀ l : List ℕ, l.Nodup → (removeFirst u l).Nodup := by
  intro l
  induction l with
  | nil => intro _; exact List.nodup_nil
  | cons y ys ih =>
      intro hnd
      rw [List.nodup_cons] at hnd
      by_cases hy : y = u
      · rw [removeFirst, if_pos hy]
        exact hnd.2
      · rw [removeFirst, if_neg hy, List.nodup_cons]
        exact ⟨fun h => hnd.1 (mem_removeFirst_subset u y ys h), ih hnd.2⟩

lemma mem_filterNe (u x : ℕ) :
    ∀ l : List ℕ, (x ∈ filterNe u l ↔ x ∈ l ∧ x ≠ u) := by
  intro l
  induction l with
  | nil => simp [filterNe]
  | cons y ys ih =>
      by_cases hy : y = u
      · rw [filterNe, if_pos hy, ih, List.mem_cons]
        constructor
        · exact fun h => ⟨Or.inr h.1, h.2⟩
        · intro h
          rcases h.1 with h2 | h2
          · exact absurd (h2.trans hy) h.2
          · exact ⟨h2, h.2⟩
      · rw [filterNe, if_neg hy, List.mem_cons, List.mem_cons, ih]
        constructor
        · intro h
          rcases h with h2 | h2
          · exact ⟨Or.inl h2, h2 ▸ hy⟩
          · exact ⟨Or.inr h2.1, h2.2⟩
        · intro h
          rcases h.1 with h2 | h2
          · exact Or.inl h2
          · exact Or.inr ⟨h2, h.2⟩

lemma filterNe_nodup (u : ℕ) :
    ∀ l : List ℕ, l.Nodup → (filterNe u l).Nodup := by
  intro l
  induction l with
  | nil => intro _; exact List.nodup_nil
  | cons y ys ih =>
      intro hnd
      rw [List.nodup_cons] at hnd
      by_cases hy : y = u
      · rw [filterNe, if_pos hy]
        exact ih hnd.2
      · rw [filterNe, if_neg hy, List.nodup_cons]
        exact ⟨fun h => hnd.1 ((mem_filterNe u y ys).mp h).1, ih hnd.2⟩

lemma filterNe_of_not_mem (u : ℕ) :
    ∀ l : List ℕ, u ∉ l → filterNe u l = l := by
  intro l
  induction l with
  | nil => intro _; rfl
  | cons y ys ih =>
      intro h
      rw [List.mem_cons] at h
      push_neg at h
      rw [filterNe, if_neg (fun h2 => h.1 h2.symm), ih h.2]

lemma mem_firstSeen (x : ℕ) : ∀ l : List ℕ, (x ∈ firstSeen l ↔ x ∈ l) := by
  intro l
  induction l with
  | nil => simp [firstSeen]
  | cons y ys ih =>
      rw [firstSeen, List.mem_cons, List.mem_cons, mem_filterNe, ih]
      by_cases hx : x = y
      · simp [hx]
      · simp [hx]

lemma firstSeen_nodup : ∀ l : List ℕ, (firstSeen l).Nodup := by
  intro l
  induction l with
  | nil => exact List.nodup_nil
  | cons y ys ih =>
      rw [firstSeen, List.nodup_cons]
      exact ⟨fun h => ((mem_filterNe y y (firstSeen ys)).mp h).2 rfl,
        filterNe_nodup y (firstSeen ys) ih⟩

lemma removeFirst_take_filterNe (a : ℕ) :
    ∀ (l : List ℕ) (m : ℕ), l.Nodup → a ∈ l.take (m + 1) →
      removeFirst a (l.take (m + 1)) = (filterNe a l).take m := by
  intro l
  induction l with
  | nil => intro m _ hmem; cases hmem
  | cons y ys ih =>
      intro m hnd hmem
      rw [List.nodup_cons] at hnd
      by_cases hy : y = a
      · rw [List.take_succ_cons, removeFirst, if_pos hy, filterNe, if_pos hy,
          filterNe_of_not_mem a ys (hy ▸ hnd.1)]
      · rw [List.take_succ_cons, List.mem_cons] at hmem
        rcases hmem with h2 | h2
        · exact absurd h2.symm hy
        · cases m with
          | zero => cases h2
          | succ m2 =>
              rw [List.take_succ_cons, removeFirst, if_neg hy, filterNe, if_neg hy,
                List.take_succ_cons, ih m2 hnd.2 h2]

lemma take_filterNe_not_mem (a : ℕ) :
    ∀ (l : List ℕ) (m : ℕ), a ∉ l.take (m + 1) →
      (filterNe a l).take m = l.take m := by
  intro l
  induction l with
  | nil => intro m _; rfl
  | cons y ys ih =>
      intro m hmem
      rw [List.take_succ_cons, List.mem_cons] at hmem
      push_neg at hmem
      rw [filterNe, if_neg (fun h2 => hmem.1 h2.symm)]
      cases m with
      | zero => rfl
      | succ m2 =>
          rw [List.take_succ_cons, List.take_succ_cons, ih m2 hmem.2]

/-! Claim C6: behaviour of one get_score call. -/

lemma getScore_hit (st : InstState) (f : Fitted) (a b ib : ℕ) (v : Mat)
    (hf : st.fitted = some f) (hib : idxOf b f.conv.itemList = some ib)
    (hv : lruFind st.cache a = some v) :
    getScore st a b =
      (Except.ok (v 0 ib), { st with cache := (a, v) :: lruErase st.cache a },
        none) := by
  simp [getScore, hf, hib, hv]

lemma getScore_miss (st : InstState) (f : Fitted) (a b ib : ℕ) (items : List ℕ)
    (hf : st.fitted = some f) (hib : idxOf b f.conv.itemList = some ib)
    (hv : lruFind st.cache a = none) (hud : f.userData a = some items) :
    getScore st a b =
      (Except.ok ((gibbs_vhv f.tstate.rbm 1 st.g (userIndicator f items)).1.vmean 0 ib),
        { st with
          cache := ((a, (gibbs_vhv f.tstate.rbm 1 st.g (userIndicator f items)).1.vmean)
            :: st.cache).take lruCap
          g := dropRng (f.tstate.rbm.nh + f.tstate.rbm.nv) st.g },
        some a) := by
  simp only [getScore, getUserPredictions, hf, hib, hv, hud]
  rfl

lemma getScore_fitted (st : InstState) (a b : ℕ) :
    (getScore st a b).2.1.fitted = st.fitted := by
  rcases hf : st.fitted with _ | f
  · simp [getScore, hf]
  · rcases hib : idxOf b f.conv.itemList with _ | ib
    · simp [getScore, hf, hib]
    · rcases hv : lruFind st.cache a with _ | v
      · rcases hup : getUserPredictions f a st.g with e | V
        · simp [getScore, hf, hib, hv, hup]
        · simp [getScore, hf, hib, hv, hup]
      · simp [getScore, hf, hib, hv]

lemma getScore_cache_cases (st : InstState) (a b : ℕ) :
    (getScore st a b).2.1.cache = st.cache
      ∨ (∃ v, lruFind st.cache a = some v
          ∧ (getScore st a b).2.1.cache = (a, v) :: lruErase st.cache a)
      ∨ (∃ V, (getScore st a b).2.1.cache = ((a, V) :: st.cache).take lruCap) := by
  rcases hf : st.fitted with _ | f
  · left; simp [getScore, hf]
  · rcases hib : idxOf b f.conv.itemList with _ | ib
    · left; simp [getScore, hf, hib]
    · rcases hv : lruFind st.cache a with _ | v
      · rcases hup : getUserPredictions f a st.g with e | V
        · left; simp [getScore, hf, hib, hv, hup]
        · right; right; exact ⟨V, by simp [getScore, hf, hib, hv, hup]⟩
      · right; left; exact ⟨v, rfl, by simp [getScore, hf, hib, hv]⟩

lemma getScore_cache_length (st : InstState) (a b : ℕ)
    (h : st.cache.length ≤ lruCap) : (getScore st a b).2.1.cache.length ≤ lruCap := by
  rcases getScore_cache_cases st a b with hc | ⟨v, hv, hc⟩ | ⟨V, hc⟩
  · rw [hc]; exact h
  · rw [hc, List.length_cons]
    have h2 := lruErase_length st.cache a (lruFind_some_mem _ _ _ hv)
    omega
  · rw [hc]
    exact List.length_take_le _ _

lemma runScores_nil (st : InstState) : runScores st [] = (st, []) := rfl

lemma runScores_cons (st : InstState) (c : ℕ × ℕ) (cs : List (ℕ × ℕ)) :
    runScores st (c :: cs) =
      ((runScores (getScore st c.1 c.2).2.1 cs).1,
        (getScore st c.1 c.2).2.2 :: (runScores (getScore st c.1 c.2).2.1 cs).2) :=
  rfl

lemma runScores_cache_length (cs : List (ℕ × ℕ)) :
    ∀ st : InstState, st.cache.length ≤ lruCap →
      (runScores st cs).1.cache.length ≤ lruCap := by
  induction cs with
  | nil => intro st h; rw [runScores_nil]; exact h
  | cons c rest ih =>
      intro st h
      rw [runScores_cons]
      exact ih (getScore st c.1 c.2).2.1 (getScore_cache_length st c.1 c.2 h)

lemma countComputes_nil (u : ℕ) : countComputes u [] = 0 := rfl

lemma countComputes_cons_none (u : ℕ) (t : List (Option ℕ)) :
    countComputes u (none :: t) = countComputes u t := by
  simp [countComputes]

lemma countComputes_cons_some (a u : ℕ) (t : List (Option ℕ)) :
    countComputes u (some a :: t) = (if a = u then 1 else 0) + countComputes u t := by
  by_cases hau : a = u
  · simp [countComputes, hau, Nat.add_comm]
  · simp [countComputes, hau]

/-! Claim C6: the cache key list is exactly the distinct users in
most-recently-used-first order, truncated to the capacity. -/

lemma step_keys_char (st : InstState) (f : Fitted) (a b ib : ℕ)
    (items : List ℕ) (past : List ℕ)
    (hf : st.fitted = some f) (hib : idxOf b f.conv.itemList = some ib)
    (hud : f.userData a = some items)
    (hk : keysOf st.cache = (firstSeen past.reverse).take lruCap) :
    keysOf (getScore st a b).2.1.cache
      = (firstSeen ((past ++ [a]).reverse)).take lruCap := by
  have hrev : (past ++ [a]).reverse = a :: past.reverse := by
    rw [List.reverse_append, List.reverse_singleton, List.singleton_append]
  have hfsnodup : (firstSeen past.reverse).Nodup := firstSeen_nodup _
  have hM : lruCap = 999 + 1 := rfl
  rw [hrev,
    show firstSeen (a :: past.reverse) = a :: filterNe a (firstSeen past.reverse)
      from rfl]
  rcases hv : lruFind st.cache a with _ | v
  · have hnotmem : a ∉ keysOf st.cache := (lruFind_eq_none _ _).mp hv
    rw [hk, hM] at hnotmem
    rw [getScore_miss st f a b ib items hf hib hv hud]
    dsimp only
    rw [keysOf_take, keysOf_cons, hk, hM, List.take_succ_cons, List.take_succ_cons,
      List.take_take, min_eq_left (by omega : (999 : ℕ) ≤ 999 + 1),
      take_filterNe_not_mem a _ 999 hnotmem]
  · have hmem : a ∈ keysOf st.cache := lruFind_some_mem _ _ _ hv
    rw [hk, hM] at hmem
    rw [getScore_hit st f a b ib v hf hib hv]
    dsimp only
    rw [keysOf_cons, keysOf_lruErase, hk, hM, List.take_succ_cons,
      removeFirst_take_filterNe a _ 999 hfsnodup hmem]

lemma lru_keys_char (f : Fitted) :
    ∀ (cs : List (ℕ × ℕ)) (st : InstState) (past : List ℕ),
      st.fitted = some f →
      (∀ c ∈ cs, (f.userData c.1).isSome = true
          ∧ (idxOf c.2 f.conv.itemList).isSome = true) →
      keysOf st.cache = (firstSeen past.reverse).take lruCap →
      keysOf (runScores st cs).1.cache
        = (firstSeen ((past ++ cs.map (fun c => c.1)).reverse)).take lruCap := by
  intro cs
  induction cs with
  | nil =>
      intro st past _ _ hk
      rw [runScores_nil]
      simpa using hk
  | cons c rest ih =>
      intro st past hf hknown hk
      obtain ⟨hudS, hibS⟩ := hknown c (List.mem_cons_self c rest)
      obtain ⟨ib, hib⟩ := Option.isSome_iff_exists.mp hibS
      obtain ⟨items, hud⟩ := Option.isSome_iff_exists.mp hudS
      have hfit : (getScore st c.1 c.2).2.1.fitted = some f := by
        rw [getScore_fitted]; exact hf
      have hstep := step_keys_char st f c.1 c.2 ib items past hf hib hud hk
      have ihh := ih (getScore st c.1 c.2).2.1 (past ++ [c.1]) hfit
        (fun c2 hc2 => hknown c2 (List.mem_cons_of_mem c hc2)) hstep
      rw [runScores_cons]
      dsimp only
      rw [ihh, List.append_assoc, List.singleton_append, List.map_cons]

/-! Claim C6: at most one fresh prediction run per user while the call
trace touches at most the cache capacity worth of distinct users. -/

lemma mem_cons_removeFirst (a u : ℕ) (l : List ℕ) (hmem : a ∈ l) :
    (u ∈ a :: removeFirst a l ↔ u ∈ l) := by
  by_cases hu : u = a
  · subst hu
    exact iff_of_true (List.mem_cons_self u _) hmem
  · rw [List.mem_cons]
    constructor
    · intro h2
      rcases h2 with h3 | h3
      · exact absurd h3 hu
      · exact mem_removeFirst_subset a u l h3
    · intro h2
      exact Or.inr ((mem_removeFirst_ne a u hu l).mpr h2)

lemma computes_le_one (f : Fitted) (u : ℕ) :
    ∀ (cs : List (ℕ × ℕ)) (st : InstState),
      st.fitted = some f →
      (∀ c ∈ cs, (f.userData c.1).isSome = true
          ∧ (idxOf c.2 f.conv.itemList).isSome = true) →
      (keysOf st.cache).Nodup →
      (keysOf st.cache ++ cs.map (fun c => c.1)).toFinset.card ≤ lruCap →
      countComputes u (runScores st cs).2 ≤ if u ∈ keysOf st.cache then 0 else 1 := by
  intro cs
  induction cs with
  | nil =>
      intro st _ _ _ _
      rw [runScores_nil]
      exact le_trans (le_of_eq (countComputes_nil u)) (Nat.zero_le _)
  | cons c rest ih =>
      intro st hf hknown hnd hcard
      obtain ⟨hudS, hibS⟩ := hknown c (List.mem_cons_self c rest)
      obtain ⟨ib, hib⟩ := Option.isSome_iff_exists.mp hibS
      obtain ⟨items, hud⟩ := Option.isSome_iff_exists.mp hudS
      have hfit : (getScore st c.1 c.2).2.1.fitted = some f := by
        rw [getScore_fitted]; exact hf
      have hknownR : ∀ c2 ∈ rest, (f.userData c2.1).isSome = true
          ∧ (idxOf c2.2 f.conv.itemList).isSome = true :=
        fun c2 hc2 => hknown c2 (List.mem_cons_of_mem c hc2)
      rcases hv : lruFind st.cache c.1 with _ | v
      · have hnotmem : c.1 ∉ keysOf st.cache := (lruFind_eq_none _ _).mp hv
        have hnda : (c.1 :: keysOf st.cache).Nodup :=
          List.nodup_cons.mpr ⟨hnotmem, hnd⟩
        have hsubS : (c.1 :: keysOf st.cache).toFinset ⊆
            (keysOf st.cache ++ (c :: rest).map (fun c2 => c2.1)).toFinset := by
          intro x hx
          rw [List.mem_toFinset, List.mem_cons] at hx
          rw [List.mem_toFinset, List.mem_append, List.map_cons]
          rcases hx with h2 | h2
          · exact Or.inr (h2 ▸ List.mem_cons_self _ _)
          · exact Or.inl h2
        have hlen1 : (c.1 :: keysOf st.cache).toFinset.card ≤ lruCap :=
          le_trans (Finset.card_le_card hsubS) hcard
        rw [List.toFinset_card_of_nodup hnda] at hlen1
        have hmiss := getScore_miss st f c.1 c.2 ib items hf hib hv hud
        have hcache2 : (getScore st c.1 c.2).2.1.cache
            = (c.1, (gibbs_vhv f.tstate.rbm 1 st.g (userIndicator f items)).1.vmean)
                :: st.cache := by
          rw [hmiss]
          dsimp only
          apply List.take_of_length_le
          have h3 := keysOf_length st.cache
          rw [List.length_cons] at hlen1 ⊢
          omega
        have hkeys2 : keysOf (getScore st c.1 c.2).2.1.cache
            = c.1 :: keysOf st.cache := by
          rw [hcache2, keysOf_cons]
        have hmarker : (getScore st c.1 c.2).2.2 = some c.1 := by rw [hmiss]
        have hcard2 : (keysOf (getScore st c.1 c.2).2.1.cache
            ++ rest.map (fun c2 => c2.1)).toFinset.card ≤ lruCap := by
          refine le_trans (Finset.card_le_card ?_) hcard
          intro x hx
          rw [hkeys2, List.mem_toFinset, List.mem_append, List.mem_cons] at hx
          rw [List.mem_toFinset, List.mem_append, List.map_cons]
          rcases hx with (h2 | h2) | h2
          · exact Or.inr (h2 ▸ List.mem_cons_self _ _)
          · exact Or.inl h2
          · exact Or.inr (List.mem_cons_of_mem _ h2)
        have hnd2 : (keysOf (getScore st c.1 c.2).2.1.cache).Nodup := by
          rw [hkeys2]; exact hnda
        have ihh := ih (getScore st c.1 c.2).2.1 hfit hknownR hnd2 hcard2
        rw [runScores_cons]
        dsimp only
        rw [hmarker, countComputes_cons_some]
        rw [hkeys2] at ihh
        by_cases hcu : c.1 = u
        · rw [if_pos hcu]
          have hui : u ∈ c.1 :: keysOf st.cache := hcu ▸ List.mem_cons_self _ _
          rw [if_pos hui] at ihh
          rw [if_neg (fun h2 => hnotmem (hcu ▸ h2))]
          omega
        · rw [if_neg hcu]
          have hui : (u ∈ c.1 :: keysOf st.cache) ↔ u ∈ keysOf st.cache := by
            rw [List.mem_cons]
            constructor
            · intro h2
              rcases h2 with h3 | h3
              · exact absurd h3.symm hcu
              · exact h3
            · exact Or.inr
          by_cases hum : u ∈ keysOf st.cache
          · rw [if_pos (hui.mpr hum)] at ihh
            rw [if_pos hum]
            omega
          · rw [if_neg (fun h2 => hum (hui.mp h2))] at ihh
            rw [if_neg hum]
            omega
      · have hmem : c.1 ∈ keysOf st.cache := lruFind_some_mem _ _ _ hv
        have hhit := getScore_hit st f c.1 c.2 ib v hf hib hv
        have hkeys2 : keysOf (getScore st c.1 c.2).2.1.cache
            = c.1 :: removeFirst c.1 (keysOf st.cache) := by
          rw [hhit]
          dsimp only
          rw [keysOf_cons, keysOf_lruErase]
        have hmemiff : ∀ x, x ∈ c.1 :: removeFirst c.1 (keysOf st.cache)
            ↔ x ∈ keysOf st.cache :=
          fun x => mem_cons_removeFirst c.1 x (keysOf st.cache) hmem
        have hnd2 : (keysOf (getScore st c.1 c.2).2.1.cache).Nodup := by
          rw [hkeys2]
          exact List.nodup_cons.mpr
            ⟨not_mem_removeFirst_self c.1 _ hnd, nodup_removeFirst c.1 _ hnd⟩
        have hcard2 : (keysOf (getScore st c.1 c.2).2.1.cache
            ++ rest.map (fun c2 => c2.1)).toFinset.card ≤ lruCap := by
          refine le_trans (Finset.card_le_card ?_) hcard
          intro x hx
          rw [hkeys2, List.mem_toFinset, List.mem_append] at hx
          rw [List.mem_toFinset, List.mem_append, List.map_cons]
          rcases hx with h2 | h2
          · exact Or.inl ((hmemiff x).mp h2)
          · exact Or.inr (List.mem_cons_of_mem _ h2)
        have hmarker : (getScore st c.1 c.2).2.2 = none := by rw [hhit]
        have ihh := ih (getScore st c.1 c.2).2.1 hfit hknownR hnd2 hcard2
        rw [runScores_cons]
        dsimp only
        rw [hmarker, countComputes_cons_none]
        rw [hkeys2] at ihh
        have hui := hmemiff u
        by_cases hum : u ∈ keysOf st.cache
        · rw [if_pos (hui.mpr hum)] at ihh
          rw [if_pos hum]
          exact ihh
        · rw [if_neg (fun h2 => hum (hui.mp h2))] at ihh
          rw [if_neg hum]
          exact ihh

/-- Claim C6: starting from a fresh instance (empty cache), for any
sequence of get_score calls whose users are all known to the fitted model
and touch at most 1000 distinct users, at most one fresh Gibbs-sampling
prediction run is performed for any given user, however many times and
with whatever items that user is queried; the cache never holds more than
1000 entries; and the cache keys are exactly the distinct users of the
trace in most-recently-used-first order truncated to the capacity, so the
entry evicted on overflow is always the least recently used one. -/
theorem c6_lru_cache (f : Fitted) (g : Rng) (calls : List (ℕ × ℕ)) (u : ℕ)
    (hknown : ∀ c ∈ calls, (f.userData c.1).isSome = true
        ∧ (idxOf c.2 f.conv.itemList).isSome = true)
    (hdist : (calls.map (fun c => c.1)).toFinset.card ≤ lruCap) :
    countComputes u (runScores { fitted := some f, cache := [], g := g } calls).2 ≤ 1
      ∧ (runScores { fitted := some f, cache := [], g := g } calls).1.cache.length
          ≤ lruCap
      ∧ keysOf (runScores { fitted := some f, cache := [], g := g } calls).1.cache
          = (firstSeen ((calls.map (fun c => c.1)).reverse)).take lruCap := by
  refine ⟨?_, ?_, ?_⟩
  · have h := computes_le_one f u calls { fitted := some f, cache := [], g := g }
      rfl hknown List.nodup_nil (by simpa using hdist)
    simpa using h
  · exact runScores_cache_length calls _ (Nat.zero_le _)
  · have h := lru_keys_char f calls { fitted := some f, cache := [], g := g } []
      rfl hknown rfl
    simpa using h

/-- Witness for claim C6: two calls for user 7 on a fresh instance of the
fitted model fitA. -/
theorem c6_witness :
    ((∀ c ∈ [((7 : ℕ), (3 : ℕ)), (7, 3)], (fitA.userData c.1).isSome = true
          ∧ (idxOf c.2 fitA.conv.itemList).isSome = true)
        ∧ ([((7 : ℕ), (3 : ℕ)), (7, 3)].map (fun c => c.1)).toFinset.card ≤ lruCap)
      ∧ (countComputes 7 (runScores { fitted := some fitA, cache := [], g := g0 }
            [(7, 3), (7, 3)]).2 ≤ 1
          ∧ (runScores { fitted := some fitA, cache := [], g := g0 }
              [(7, 3), (7, 3)]).1.cache.length ≤ lruCap
          ∧ keysOf (runScores { fitted := some fitA, cache := [], g := g0 }
                [(7, 3), (7, 3)]).1.cache
              = (firstSeen (([((7 : ℕ), (3 : ℕ)), (7, 3)].map
                  (fun c => c.1)).reverse)).take lruCap) :=
  ⟨⟨by decide, by decide⟩,
    c6_lru_cache fitA g0 [(7, 3), (7, 3)] 7 (by decide) (by decide)⟩

end TestFM
